import Mathlib

/-
Verification development for `git_versions.py`, a tool that reads a list of
git checkout paths from a config file, lists each repository's tags, filters
them as semantic versions (optionally against a user-supplied range
specification), sorts the retained tags with `distutils.version.StrictVersion`
as the sort key, and prints `<basename>: <latest version or "no match">`
per repository.

The embedding models the program's pure data flow.  The two external
collaborators (`git fetch` / `git tag -l` subprocesses) are modelled by an
oracle `tagsOf : String → List String` giving the tag-listing output lines of
each repository path, and are assumed to succeed (a non-zero exit of either
command aborts the whole run; no claim exercises that path).  The two
third-party library functions used by the code are modelled from their
documented grammars:
  * `distutils.version.StrictVersion` (stdlib source: regex
    `^(\d+)\.(\d+)(\.(\d+))?([ab](\d+))?$`, numeric tuple comparison,
    pre-release `[ab]N` sorting before the corresponding release), and
  * `semantic_version.Version(tag, partial=True)` / `semantic_version.Spec`
    from the python-semanticversion library (partial grammar
    `^(\d+)(\.(\d+)(\.(\d+))?)?(-[0-9a-zA-Z.-]*)?(\+[0-9a-zA-Z.-]*)?$`
    with leading-zero and identifier validation; comma-separated comparator
    clauses for `Spec`).
-/

namespace GitVersions

/-! ### Character and number helpers -/

/-- Numeric value of a run of decimal digits, as Python `int` does. -/
def natOfDigits (ds : List Char) : Nat :=
  ds.foldl (fun n c => 10 * n + (c.toNat - 48)) 0

/-- A digit string with a redundant leading zero, python-semanticversion's
`_has_leading_zero` restricted to digit runs. -/
def hasLeadingZero : List Char → Bool
| '0' :: _ :: _ => true
| _ => false

/-- Characters allowed in pre-release and build identifiers by the
python-semanticversion grammar class `[0-9a-zA-Z.-]`. -/
def isIdentChar (c : Char) : Bool :=
  c.isDigit || c.isAlpha || c == '.' || c == '-'

/-- Python `str.split('.')` on a character list. -/
def splitOnDot : List Char → List (List Char)
| [] => [[]]
| '.' :: r => [] :: splitOnDot r
| c :: r =>
  match splitOnDot r with
  | [] => [[c]]
  | g :: gs => (c :: g) :: gs

/-- Python `str.split(',')` on a character list. -/
def splitOnComma : List Char → List (List Char)
| [] => [[]]
| ',' :: r => [] :: splitOnComma r
| c :: r =>
  match splitOnComma r with
  | [] => [[c]]
  | g :: gs => (c :: g) :: gs

/-! ### Model of `distutils.version.StrictVersion`

Parsed from the stdlib regex `^(\d+) \. (\d+) (\. (\d+))? ([ab](\d+))?$`;
a missing patch component defaults to `0`; comparison is by the numeric
triple, with a pre-release version ordered before the same numeric triple
without one, and pre-releases ordered by (letter, number). -/

structure StrictV where
  major : Nat
  minor : Nat
  patch : Nat
  pre : Option (Char × Nat)
deriving DecidableEq

/-- The optional `.patch` group of the StrictVersion regex: either absent
(patch defaults to 0) or a dot followed by a digit run; a dot not followed
by digits makes the whole regex fail. -/
def parsePatch : List Char → Option (Nat × List Char)
| '.' :: r =>
  if (r.takeWhile Char.isDigit).isEmpty then none
  else some (natOfDigits (r.takeWhile Char.isDigit), r.dropWhile Char.isDigit)
| r => some (0, r)

/-- The optional `[ab]\d+` pre-release group of the StrictVersion regex,
which must consume the rest of the string. -/
def parsePre : List Char → Option (Option (Char × Nat))
| [] => some none
| c :: r =>
  if c == 'a' || c == 'b' then
    if (r.takeWhile Char.isDigit).isEmpty || !(r.dropWhile Char.isDigit).isEmpty then none
    else some (some (c, natOfDigits (r.takeWhile Char.isDigit)))
  else none

/-- Model of constructing `distutils.version.StrictVersion(s)`: `none` when
the constructor raises `ValueError` (the string does not match the strict
`major.minor[.patch][ab N]` grammar). -/
def StrictVersion (s : String) : Option StrictV :=
  let cs := s.data
  let d1 := cs.takeWhile Char.isDigit
  let r1 := cs.dropWhile Char.isDigit
  if d1.isEmpty then none else
  match r1 with
  | '.' :: r2 =>
    let d2 := r2.takeWhile Char.isDigit
    let r3 := r2.dropWhile Char.isDigit
    if d2.isEmpty then none else
    match parsePatch r3 with
    | none => none
    | some (pa, r4) =>
      match parsePre r4 with
      | none => none
      | some pr => some ⟨natOfDigits d1, natOfDigits d2, pa, pr⟩
  | _ => none

/-- Sort key of a StrictVersion as a flat numeric 6-tuple: the numeric
triple, then `1` for a release versus `0` for a pre-release (a pre-release
sorts before the release with the same numeric triple), then the
pre-release letter and number. -/
def StrictV.key (v : StrictV) : List Nat :=
  match v.pre with
  | none => [v.major, v.minor, v.patch, 1, 0, 0]
  | some (c, n) => [v.major, v.minor, v.patch, 0, c.toNat, n]

/-- Lexicographic `≤` on lists of naturals (Python tuple comparison). -/
def lexLe : List Nat → List Nat → Bool
| [], _ => true
| _ :: _, [] => false
| x :: xs, y :: ys =>
  if x < y then true
  else if y < x then false
  else lexLe xs ys

/-- The (total pre)order by which `StrictVersion` keys compare in
`distutils.version.StrictVersion._cmp`. -/
def strictLe (u v : StrictV) : Bool := lexLe u.key v.key

/-! ### Model of `semantic_version.Version(s, partial=True)`

Modelled from the spec: the "semantic-version parsing/matching library" is
an out-of-scope black-box collaborator of the program ("parsed against
semantic-version grammar in partial mode (partial = allows missing
minor/patch components)"); its source is not part of this repository.  The
definitions below follow python-semanticversion's documented partial
grammar: `major[.minor[.patch]][-prerelease][+build]` where the numeric
components have no leading zeros, and the dot-separated pre-release/build
identifiers over `[0-9a-zA-Z-]` are non-empty (numeric pre-release
identifiers having no leading zero). -/

structure SemTag where
  major : Nat
  minor : Option Nat
  patch : Option Nat
  prerelease : Option (List (List Char))
  build : Option (List (List Char))
deriving DecidableEq

/-- A digit run with no redundant leading zero; `none` when empty or with a
leading zero (the library raises `ValueError` on a leading zero). -/
def parseNumStrict (cs : List Char) : Option (Nat × List Char) :=
  let d := cs.takeWhile Char.isDigit
  if d.isEmpty || hasLeadingZero d then none
  else some (natOfDigits d, cs.dropWhile Char.isDigit)

/-- An optional `.component`: absent when the input does not start with a
dot, failing when a dot is not followed by a valid digit run. -/
def parseOptDotNum : List Char → Option (Option Nat × List Char)
| '.' :: r =>
  match parseNumStrict r with
  | none => none
  | some (n, r2) => some (some n, r2)
| r => some (none, r)

/-- Numeric pre-release identifier carrying a redundant leading zero
(invalid in a pre-release). -/
def numericLeadingZero (w : List Char) : Bool :=
  hasLeadingZero w && w.all Char.isDigit

/-- A valid pre-release identifier: non-empty, and not a numeric identifier
with a leading zero. -/
def validPreIdent (w : List Char) : Bool :=
  !w.isEmpty && !numericLeadingZero w

/-- Validated pre-release identifier list: the empty raw string yields the
empty tuple, otherwise the dot-split identifiers are each validated. -/
def preIdentsOf (raw : List Char) : Option (List (List Char)) :=
  if raw.isEmpty then some []
  else if (splitOnDot raw).all validPreIdent then some (splitOnDot raw) else none

/-- Validated build identifier list: as for pre-release, but leading zeros
are allowed in identifiers. -/
def buildIdentsOf (raw : List Char) : Option (List (List Char)) :=
  if raw.isEmpty then some []
  else if (splitOnDot raw).all (fun w => !w.isEmpty) then some (splitOnDot raw) else none

/-- The optional `-prerelease` and `+build` suffixes: each is a greedy run
of identifier characters (the class excludes `+`), and the remainder must
be empty for the whole grammar to match. -/
def parseTail (r : List Char) : Option (Option (List Char) × Option (List Char)) :=
  let pr : Option (List Char) × List Char :=
    match r with
    | '-' :: rr => (some (rr.takeWhile isIdentChar), rr.dropWhile isIdentChar)
    | _ => (none, r)
  let bl : Option (List Char) × List Char :=
    match pr.2 with
    | '+' :: rr => (some (rr.takeWhile isIdentChar), rr.dropWhile isIdentChar)
    | _ => (none, pr.2)
  if bl.2.isEmpty then some (pr.1, bl.1) else none

/-- Assembly and identifier validation of a partial version, following the
library: an absent pre-release stays `None` only when the build is also
absent, and an absent build stays `None` in partial mode. -/
def mkSemTag (maj : Nat) (mi pa : Option Nat) :
    Option (List Char) → Option (List Char) → Option SemTag
| none, none => some ⟨maj, mi, pa, none, none⟩
| none, some b =>
  match buildIdentsOf b with
  | none => none
  | some bids => some ⟨maj, mi, pa, some [], some bids⟩
| some p, none =>
  match preIdentsOf p with
  | none => none
  | some pids => some ⟨maj, mi, pa, some pids, none⟩
| some p, some b =>
  match preIdentsOf p, buildIdentsOf b with
  | some pids, some bids => some ⟨maj, mi, pa, some pids, some bids⟩
  | _, _ => none

/-- Model of `semantic_version.Version(s, partial=True)` on a character
list: `none` when the constructor raises `ValueError`. -/
def looseParseChars (cs : List Char) : Option SemTag :=
  if cs.isEmpty then none else
  match parseNumStrict cs with
  | none => none
  | some (maj, r1) =>
    match parseOptDotNum r1 with
    | none => none
    | some (mi, r2) =>
      match parseOptDotNum r2 with
      | none => none
      | some (pa, r3) =>
        match parseTail r3 with
        | none => none
        | some (pre, bld) => mkSemTag maj mi pa pre bld

/-- Model of `semantic_version.Version(s, partial=True)`. -/
def looseParse (s : String) : Option SemTag := looseParseChars s.data

/-! ### Model of `semantic_version.Spec`

Modelled from the spec: the range-expression side of the same black-box
library ("a user-supplied semantic-version range expression; when present,
only candidates matching the range survive filtering").  A specification is
a comma-separated conjunction of comparator clauses, each an optional
comparator (`<= >= == != ~= < > ^ ~ =`, default `==`) followed by a partial
version; a clause whose version part does not parse makes the whole
specification constructor raise `ValueError`. -/

inductive SpecOp
| anyv | lt | lte | eq | gte | gt | neq | caret | tilde | compat
deriving DecidableEq

structure SpecItem where
  op : SpecOp
  target : SemTag
deriving DecidableEq

/-- Longest-match comparator at the head of a clause; no comparator means
equality. -/
def stripOp : List Char → SpecOp × List Char
| '<' :: '=' :: r => (.lte, r)
| '>' :: '=' :: r => (.gte, r)
| '=' :: '=' :: r => (.eq, r)
| '!' :: '=' :: r => (.neq, r)
| '~' :: '=' :: r => (.compat, r)
| '<' :: r => (.lt, r)
| '>' :: r => (.gt, r)
| '^' :: r => (.caret, r)
| '~' :: r => (.tilde, r)
| '=' :: r => (.eq, r)
| r => (.eq, r)

/-- The all-zero placeholder target used by the wildcard clause. -/
def zeroTag : SemTag := ⟨0, none, none, none, none⟩

/-- One comparator clause: empty clauses are invalid, `*` matches anything,
and a build component on the target is only allowed for (in)equality. -/
def parseClause (cs : List Char) : Option SpecItem :=
  if cs.isEmpty then none
  else if cs = ['*'] then some ⟨.anyv, zeroTag⟩
  else
    let p := stripOp cs
    match looseParseChars p.2 with
    | none => none
    | some t =>
      if t.build ≠ none ∧ p.1 ≠ .eq ∧ p.1 ≠ .neq then none
      else some ⟨p.1, t⟩

/-- All clauses must parse for the specification to be valid. -/
def parseClauses : List (List Char) → Option (List SpecItem)
| [] => some []
| c :: cs =>
  match parseClause c, parseClauses cs with
  | some i, some is => some (i :: is)
  | _, _ => none

/-- Model of constructing `semantic_version.Spec(s)`: `none` when the
constructor raises `ValueError`. -/
def specParse (s : String) : Option (List SpecItem) :=
  parseClauses (splitOnComma s.data)

/-- Pre-release identifiers of a tag for comparison purposes; an absent or
empty pre-release both denote a release. -/
def SemTag.preIds (t : SemTag) : Option (List (List Char)) :=
  match t.prerelease with
  | none => none
  | some [] => none
  | some l => some l

/-- Numeric triple of a partial version with absent components read as 0. -/
def SemTag.nums (t : SemTag) : List Nat :=
  [t.major, t.minor.getD 0, t.patch.getD 0]

/-- A numeric (all-digits, non-empty) identifier. -/
def identIsNum (w : List Char) : Bool := !w.isEmpty && w.all Char.isDigit

/-- Lexicographic strict order on character lists. -/
def charListLt : List Char → List Char → Bool
| [], [] => false
| [], _ :: _ => true
| _ :: _, [] => false
| a :: as, b :: bs =>
  if a < b then true
  else if b < a then false
  else charListLt as bs

/-- Semantic-version precedence on single pre-release identifiers: numeric
identifiers compare numerically and precede alphanumeric ones. -/
def identLt (a b : List Char) : Bool :=
  if identIsNum a && identIsNum b then decide (natOfDigits a < natOfDigits b)
  else if identIsNum a then true
  else if identIsNum b then false
  else charListLt a b

/-- Semantic-version precedence on pre-release identifier lists; a strict
prefix precedes its extensions. -/
def identListLt : List (List Char) → List (List Char) → Bool
| [], [] => false
| [], _ :: _ => true
| _ :: _, [] => false
| a :: as, b :: bs =>
  if identLt a b then true
  else if identLt b a then false
  else identListLt as bs

/-- Strict precedence on partial versions: numeric triple first, then a
pre-release precedes the corresponding release, then pre-release
identifiers. -/
def semLt (x y : SemTag) : Bool :=
  if lexLe x.nums y.nums && !lexLe y.nums x.nums then true
  else if lexLe y.nums x.nums && !lexLe x.nums y.nums then false
  else
    match x.preIds, y.preIds with
    | none, none => false
    | some _, none => true
    | none, some _ => false
    | some a, some b => identListLt a b

/-- Equality of partial versions up to absent-component defaulting. -/
def semEq (x y : SemTag) : Bool := x.nums == y.nums && x.preIds == y.preIds

/-- Upper bound of a caret clause. -/
def nextMajor (t : SemTag) : SemTag := ⟨t.major + 1, some 0, some 0, none, none⟩

/-- Upper bound of a tilde clause. -/
def nextMinor (t : SemTag) : SemTag :=
  ⟨t.major, some (t.minor.getD 0 + 1), some 0, none, none⟩

/-- Evaluation of one comparator clause at a version. -/
def SpecItem.matches (it : SpecItem) (v : SemTag) : Bool :=
  match it.op with
  | .anyv => true
  | .lt => semLt v it.target
  | .lte => semLt v it.target || semEq v it.target
  | .eq => semEq v it.target
  | .gte => !semLt v it.target
  | .gt => !semLt v it.target && !semEq v it.target
  | .neq => !semEq v it.target
  | .caret => !semLt v it.target && semLt v (nextMajor it.target)
  | .tilde => !semLt v it.target && semLt v (nextMinor it.target)
  | .compat => !semLt v it.target && semLt v (nextMinor it.target)

/-- Model of `Spec.match`: every clause must match. -/
def specMatches (sp : List SpecItem) (v : SemTag) : Bool :=
  sp.all (fun it => it.matches v)

/-! ### The reporter pipeline (`print_versions`) -/

/-- Python `s.lstrip('v')`: removes every leading `'v'` character. -/
def lstripV (s : String) : String :=
  String.mk (s.data.dropWhile (fun c => c == 'v'))

/-- Python `os.path.basename` for POSIX paths: everything after the last
slash. -/
def basename (p : String) : String :=
  String.mk ((p.data.reverse.takeWhile (fun c => c != '/')).reverse)

/-- Whether a config line starts with the comment character. -/
def startsHash (s : String) : Bool := s.data.head? == some '#'

/-- Cons onto the retained list unless a fatal error already occurred. -/
def consOk (t : String) : Except Unit (List String) → Except Unit (List String)
| .error e => .error e
| .ok vs => .ok (t :: vs)

/-- The per-tag filtering loop of `print_versions` (lines 55-76): strip
leading `v`s, skip empty tags, skip tags failing the loose parse, and when
the (already normalised) spec string is truthy, construct the `Spec` anew
for this tag (an invalid spec raises an uncaught `ValueError`, modelled as
`.error ()`) and skip non-matching tags; surviving stripped tag strings are
retained in order. -/
def filterTags (spec : Option String) : List String → Except Unit (List String)
| [] => .ok []
| tag :: rest =>
  if lstripV tag = "" then filterTags spec rest
  else
    match looseParse (lstripV tag) with
    | none => filterTags spec rest
    | some sem =>
      match spec with
      | some s =>
        if s = "" then consOk (lstripV tag) (filterTags spec rest)
        else
          match specParse s with
          | none => .error ()
          | some sp =>
            if specMatches sp sem then consOk (lstripV tag) (filterTags spec rest)
            else filterTags spec rest
      | none => consOk (lstripV tag) (filterTags spec rest)

/-- The total preorder used as Python's sort key comparison in
`versions.sort(key=StrictVersion)`. -/
def pairLe (a b : String × StrictV) : Prop := strictLe a.2 b.2 = true

instance : DecidableRel pairLe :=
  fun a b => instDecidableEqBool (strictLe a.2 b.2) true

/-- Key computation of `versions.sort(key=StrictVersion)`: all keys are
computed before sorting, and the first `ValueError` aborts the sort leaving
the list unchanged. -/
def strictKeys : List String → Option (List (String × StrictV))
| [] => some []
| t :: ts =>
  match StrictVersion t, strictKeys ts with
  | some v, some rest => some ((t, v) :: rest)
  | _, _ => none

/-- Model of `versions.sort(key=StrictVersion)` (line 79): `none` when some
key raises `ValueError`, otherwise the stable sort of the strings by their
`StrictVersion` keys (Python's `list.sort` is stable; `insertionSort` is
the stable sort by the same preorder). -/
def sortStrict (l : List String) : Option (List String) :=
  match strictKeys l with
  | none => none
  | some ps => some ((List.insertionSort pairLe ps).map Prod.fst)

/-- Python `repr` of a quote-free string. -/
def pyRepr (s : String) : String := "'" ++ s ++ "'"

/-- Comma-space join, as in Python's list `repr`. -/
def joinCommaSp : List String → String
| [] => ""
| [x] => x
| x :: y :: xs => x ++ ", " ++ joinCommaSp (y :: xs)

/-- Python `str` of a list of quote-free strings, as interpolated by
`'%s' % versions`. -/
def pyListRepr (l : List String) : String :=
  "[" ++ joinCommaSp (l.map pyRepr) ++ "]"

/-- The diagnostic printed on line 81 before `exit(-1)`. -/
def invalidDiag (repo : String) (versions : List String) : String :=
  "Invalid version in repo " ++ repo ++ ": " ++ pyListRepr versions

/-- Result of processing one repository path (lines 52-87). -/
inductive RepoOutcome
| line (s : String)
| invalid (diag : String)
| specErr
deriving DecidableEq

/-- Processing of one repository path (lines 52-87): filter the tags, sort
the retained list with `StrictVersion` keys (failure prints a diagnostic
and exits), then print `basename: last-or-"no match"`. -/
def processRepo (spec : Option String) (repo : String) (tags : List String) :
    RepoOutcome :=
  match filterTags spec tags with
  | .error _ => .specErr
  | .ok versions =>
    match sortStrict versions with
    | none => .invalid (invalidDiag repo versions)
    | some sorted =>
      .line (basename repo ++ ": " ++
        (match sorted.getLast? with
         | none => "no match"
         | some v => if v = "" then "no match" else v))

/-- Final state of a run: normal completion (exit 0 by falling through),
`exit(-1)` after the invalid-version diagnostic, or the uncaught
`ValueError` from a malformed spec (interpreter exits 1). -/
inductive Outcome
| ok
| invalidExit
| specCrash
deriving DecidableEq

/-- The process exit code denoted by each outcome (`exit(-1)`'s argument
for the invalid-version abort). -/
def Outcome.exitCode : Outcome → Int
| .ok => 0
| .invalidExit => -1
| .specCrash => 1

/-- The main loop of `print_versions` (lines 33-87) over the config lines,
with the external `git` commands modelled by the tag oracle `tagsOf` and
assumed to succeed: blank lines are skipped, `#`-lines print one blank
line, and other lines are processed as repository paths; an abort stops
the run, keeping the lines already printed. -/
def run (spec : Option String) (tagsOf : String → List String) :
    List String → List String × Outcome
| [] => ([], .ok)
| repo :: rest =>
  if repo = "" then run spec tagsOf rest
  else if startsHash repo then
    let p := run spec tagsOf rest
    ("" :: p.1, p.2)
  else
    match processRepo spec repo (tagsOf repo) with
    | .line l =>
      let p := run spec tagsOf rest
      (l :: p.1, p.2)
    | .invalid d => ([d], .invalidExit)
    | .specErr => ([], .specCrash)

/-- The spec normalisation at the top of `print_versions` (lines 23-25):
a truthy spec has its leading `v`s stripped. -/
def normSpec : Option String → Option String
| none => none
| some s => if s = "" then some s else some (lstripV s)

/-- Python `str.split('\n')` on a character list, as applied to the decoded
config file content. -/
def splitLines : List Char → List (List Char)
| [] => [[]]
| '\n' :: r => [] :: splitLines r
| c :: r =>
  match splitLines r with
  | [] => [[c]]
  | g :: gs => (c :: g) :: gs

/-- The config lines of a file content string. -/
def configLines (fileContent : String) : List String :=
  (splitLines fileContent.data).map String.mk

/-- Model of `print_versions(spec, fetch)` (lines 22-87): the config file
content is decoded and split on newlines, and the repository lines are
processed in order.  The `fetch` flag only controls the side-effect-free
(output-discarded) `git fetch` call and does not affect the output. -/
def print_versions (spec : Option String) (tagsOf : String → List String)
    (fileContent : String) : List String × Outcome :=
  run (normSpec spec) tagsOf (configLines fileContent)

/-! ### Model of `main` (lines 90-99) -/

/-- Result of the argument handling in `main`: help display, the uncaught
`IndexError` from evaluating `_[0]` on an empty argument, or a call to
`print_versions` with the classified spec and fetch flag. -/
inductive MainResult
| helpExit
| indexError
| callsReport (spec : Option String) (fetch : Bool)
deriving DecidableEq

/-- The list comprehension `[_ for _ in sys.argv[1:] if _[0] != '-']`:
evaluated left to right, it raises `IndexError` (modelled `none`) at the
first empty argument. -/
def filterArgs : List String → Option (List String)
| [] => some []
| a :: rest =>
  if a = "" then none
  else
    match filterArgs rest with
    | none => none
    | some l => some (if a.data.head? ≠ some ('-') then a :: l else l)

/-- Model of `main()` on the full `sys.argv` (program name included):
help flags exit first; then the arguments are classified, and
`print_versions` is called with the first non-flag argument (if any) as
the spec. -/
def main (argv : List String) : MainResult :=
  if argv.contains ("-h") || argv.contains ("--help") then .helpExit
  else
    match filterArgs (argv.drop 1) with
    | none => .indexError
    | some args => .callsReport args.head? (!argv.contains ("--nofetch"))

/-- The output contribution of one config line in a successful run: blank
lines contribute nothing, comment lines one empty line, repository lines
their result line. -/
def outLine (spec : Option String) (tagsOf : String → List String) (r : String) :
    Option String :=
  if r = "" then none
  else if startsHash r then some ""
  else
    match processRepo spec r (tagsOf r) with
    | .line l => some l
    | _ => none

/-! ### Order properties of the StrictVersion key comparison -/

theorem lexLe_refl (l : List Nat) : lexLe l l = true := by
  induction l with
  | nil => rfl
  | cons x xs ih => simp [lexLe, ih]

theorem lexLe_total (a : List Nat) : ∀ b, lexLe a b = true ∨ lexLe b a = true := by
  induction a with
  | nil => intro b; left; rfl
  | cons x xs ih =>
    intro b
    cases b with
    | nil => right; rfl
    | cons y ys =>
      rcases Nat.lt_trichotomy x y with h | h | h
      · left; simp [lexLe, h]
      · subst h
        rcases ih ys with h2 | h2
        · left; simp [lexLe, h2]
        · right; simp [lexLe, h2]
      · right; simp [lexLe, h]

theorem lexLe_trans (a : List Nat) :
    ∀ b c, lexLe a b = true → lexLe b c = true → lexLe a c = true := by
  induction a with
  | nil => intro b c _ _; rfl
  | cons x xs ih =>
    intro b c h1 h2
    cases b with
    | nil => simp [lexLe] at h1
    | cons y ys =>
      cases c with
      | nil => simp [lexLe] at h2
      | cons z zs =>
        simp only [lexLe] at h1 h2 ⊢
        split_ifs at h1 h2 ⊢ <;> try rfl
        all_goals first
          | omega
          | exact ih ys zs h1 h2

theorem strictLe_refl (v : StrictV) : strictLe v v = true := lexLe_refl v.key

instance : IsTotal (String × StrictV) pairLe :=
  ⟨fun a b => lexLe_total a.2.key b.2.key⟩

instance : IsTrans (String × StrictV) pairLe :=
  ⟨fun a b c h1 h2 => lexLe_trans a.2.key b.2.key c.2.key h1 h2⟩

/-! ### Sorting lemmas -/

theorem mem_of_getLast?_eq {α : Type} {l : List α} {a : α}
    (h : l.getLast? = some a) : a ∈ l := by
  rcases List.getLast?_eq_some_iff.mp h with ⟨ys, rfl⟩
  simp

theorem sorted_getLast_max {α : Type} {r : α → α → Prop} (hrefl : ∀ x, r x x) :
    ∀ {l : List α}, l.Sorted r → ∀ x ∈ l, ∀ y, l.getLast? = some y → r x y := by
  intro l
  induction l with
  | nil => intro _ x hx; simp at hx
  | cons a t ih =>
    intro hs x hx y hy
    rcases List.sorted_cons.mp hs with ⟨ha, ht⟩
    cases t with
    | nil =>
      simp at hx hy
      subst hx; subst hy
      exact hrefl _
    | cons b t2 =>
      rw [List.getLast?_cons_cons] at hy
      rcases List.mem_cons.mp hx with rfl | hx2
      · exact ha y (mem_of_getLast?_eq hy)
      · exact ih ht x hx2 y hy

theorem strictKeys_map_fst :
    ∀ {l : List String} {ps}, strictKeys l = some ps → ps.map Prod.fst = l := by
  intro l
  induction l with
  | nil =>
    intro ps h
    simp only [strictKeys] at h
    cases h
    rfl
  | cons t ts ih =>
    intro ps h
    simp only [strictKeys] at h
    cases hv : StrictVersion t with
    | none => rw [hv] at h; cases h
    | some v =>
      rw [hv] at h
      cases hk : strictKeys ts with
      | none => rw [hk] at h; cases h
      | some rest =>
        rw [hk] at h
        cases h
        simp [ih hk]

theorem strictKeys_mem :
    ∀ {l : List String} {ps}, strictKeys l = some ps →
      ∀ p ∈ ps, StrictVersion p.1 = some p.2 := by
  intro l
  induction l with
  | nil =>
    intro ps h p hp
    simp only [strictKeys] at h
    cases h
    simp at hp
  | cons t ts ih =>
    intro ps h p hp
    simp only [strictKeys] at h
    cases hv : StrictVersion t with
    | none => rw [hv] at h; cases h
    | some v =>
      rw [hv] at h
      cases hk : strictKeys ts with
      | none => rw [hk] at h; cases h
      | some rest =>
        rw [hk] at h
        cases h
        rcases List.mem_cons.mp hp with rfl | hp2
        · exact hv
        · exact ih hk p hp2

theorem strictKeys_none_of_mem :
    ∀ {l : List String} {t}, t ∈ l → StrictVersion t = none → strictKeys l = none := by
  intro l
  induction l with
  | nil => intro t ht; simp at ht
  | cons a ts ih =>
    intro t ht hb
    rcases List.mem_cons.mp ht with rfl | ht2
    · simp [strictKeys, hb]
    · simp only [strictKeys]
      rw [ih ht2 hb]
      cases StrictVersion a <;> rfl

theorem sortStrict_none_of_mem {vs : List String} {t : String}
    (h : t ∈ vs) (hb : StrictVersion t = none) : sortStrict vs = none := by
  simp [sortStrict, strictKeys_none_of_mem h hb]

/-- The last element of a successful strict sort is a retained tag whose
StrictVersion key dominates every retained tag's key. -/
theorem sortStrict_ok_max {vs sorted : List String}
    (h : sortStrict vs = some sorted) (hne : vs ≠ []) :
    ∃ v, sorted.getLast? = some v ∧ v ∈ vs ∧
      ∀ t ∈ vs, ∃ kt kv, StrictVersion t = some kt ∧ StrictVersion v = some kv ∧
        strictLe kt kv = true := by
  simp only [sortStrict] at h
  cases hk : strictKeys vs with
  | none => rw [hk] at h; cases h
  | some ps =>
    rw [hk] at h
    cases h
    have hfst : ps.map Prod.fst = vs := strictKeys_map_fst hk
    have hpsne : ps ≠ [] := by
      intro hnil
      rw [hnil] at hfst
      exact hne hfst.symm
    have hperm := List.perm_insertionSort pairLe ps
    have hqne : List.insertionSort pairLe ps ≠ [] := by
      intro hnil
      rw [hnil] at hperm
      exact hpsne (List.Perm.nil_eq hperm).symm
    have hq : (List.insertionSort pairLe ps).getLast?.isSome := by
      rw [List.getLast?_isSome]; exact hqne
    rcases Option.isSome_iff_exists.mp hq with ⟨p, hp⟩
    refine ⟨p.1, ?_, ?_, ?_⟩
    · rw [List.getLast?_map, hp]; rfl
    · rw [← hfst]
      exact List.mem_map_of_mem Prod.fst (hperm.mem_iff.mp (mem_of_getLast?_eq hp))
    · intro t ht
      rw [← hfst] at ht
      rcases List.mem_map.mp ht with ⟨pt, hptmem, hpt1⟩
      have hptq : pt ∈ List.insertionSort pairLe ps := hperm.mem_iff.mpr hptmem
      have hsorted := List.sorted_insertionSort pairLe ps
      have hle : pairLe pt p :=
        sorted_getLast_max (r := pairLe) (fun x => strictLe_refl x.2) hsorted pt hptq p hp
      have hpmem : p ∈ ps := hperm.mem_iff.mp (mem_of_getLast?_eq hp)
      refine ⟨pt.2, p.2, ?_, ?_, hle⟩
      · rw [← hpt1]; exact strictKeys_mem hk pt hptmem
      · exact strictKeys_mem hk p hpmem

/-! ### Properties of the tag filter -/

theorem looseParse_empty : looseParse "" = none := rfl

theorem lstripV_ne_empty_of_parse {tg : String} {sem : SemTag}
    (hl : looseParse (lstripV tg) = some sem) : lstripV tg ≠ "" := by
  intro he
  rw [he, looseParse_empty] at hl
  cases hl

theorem consOk_ok {t : String} {x : Except Unit (List String)} {vs : List String}
    (h : consOk t x = Except.ok vs) : ∃ vs2, x = Except.ok vs2 ∧ vs = t :: vs2 := by
  cases x with
  | error e => simp [consOk] at h
  | ok vs2 =>
    simp [consOk] at h
    exact ⟨vs2, rfl, h.symm⟩

/-- Every retained tag string is non-empty. -/
theorem retained_ne_empty {spec : Option String} :
    ∀ {tags vs : List String}, filterTags spec tags = Except.ok vs → ∀ v ∈ vs, v ≠ "" := by
  intro tags
  induction tags with
  | nil =>
    intro vs h v hv
    simp only [filterTags] at h
    cases h
    simp at hv
  | cons tag rest ih =>
    intro vs h v hv
    by_cases h0 : lstripV tag = ""
    · simp [filterTags, h0] at h
      exact ih h v hv
    · cases hl : looseParse (lstripV tag) with
      | none =>
        simp [filterTags, h0, hl] at h
        exact ih h v hv
      | some sem =>
        cases spec with
        | none =>
          simp [filterTags, h0, hl] at h
          rcases consOk_ok h with ⟨vs2, hr, rfl⟩
          rcases List.mem_cons.mp hv with rfl | hv2
          · exact h0
          · exact ih hr v hv2
        | some s =>
          by_cases hs : s = ""
          · subst hs
            simp [filterTags, h0, hl] at h
            rcases consOk_ok h with ⟨vs2, hr, rfl⟩
            rcases List.mem_cons.mp hv with rfl | hv2
            · exact h0
            · exact ih hr v hv2
          · cases hsp : specParse s with
            | none => simp [filterTags, h0, hl, hs, hsp] at h
            | some sp =>
              by_cases hm : specMatches sp sem = true
              · simp [filterTags, h0, hl, hs, hsp, hm] at h
                rcases consOk_ok h with ⟨vs2, hr, rfl⟩
                rcases List.mem_cons.mp hv with rfl | hv2
                · exact h0
                · exact ih hr v hv2
              · simp [filterTags, h0, hl, hs, hsp, hm] at h
                exact ih h v hv

/-- Under a truthy, well-formed spec, every retained tag loose-parses and
matches the spec. -/
theorem retained_matched {s : String} {sp : List SpecItem}
    (hs : s ≠ "") (hp : specParse s = some sp) :
    ∀ {tags vs : List String}, filterTags (some s) tags = Except.ok vs →
      ∀ v ∈ vs, ∃ sem, looseParse v = some sem ∧ specMatches sp sem = true := by
  intro tags
  induction tags with
  | nil =>
    intro vs h v hv
    simp only [filterTags] at h
    cases h
    simp at hv
  | cons tag rest ih =>
    intro vs h v hv
    by_cases h0 : lstripV tag = ""
    · simp [filterTags, h0] at h
      exact ih h v hv
    · cases hl : looseParse (lstripV tag) with
      | none =>
        simp [filterTags, h0, hl] at h
        exact ih h v hv
      | some sem =>
        by_cases hm : specMatches sp sem = true
        · simp [filterTags, h0, hl, hs, hp, hm] at h
          rcases consOk_ok h with ⟨vs2, hr, rfl⟩
          rcases List.mem_cons.mp hv with rfl | hv2
          · exact ⟨sem, hl, hm⟩
          · exact ih hr v hv2
        · simp [filterTags, h0, hl, hs, hp, hm] at h
          exact ih h v hv

/-- When the spec (if truthy) parses, the filter never raises. -/
theorem filterTags_total {spec : Option String}
    (hsp : ∀ s, spec = some s → s ≠ "" → (specParse s).isSome) :
    ∀ tags, ∃ vs, filterTags spec tags = Except.ok vs := by
  intro tags
  induction tags with
  | nil => exact ⟨[], rfl⟩
  | cons tag rest ih =>
    rcases ih with ⟨vs, hr⟩
    by_cases h0 : lstripV tag = ""
    · exact ⟨vs, by simp [filterTags, h0]; exact hr⟩
    · cases hl : looseParse (lstripV tag) with
      | none => exact ⟨vs, by simp [filterTags, h0, hl]; exact hr⟩
      | some sem =>
        cases hspec : spec with
        | none =>
          refine ⟨lstripV tag :: vs, ?_⟩
          rw [hspec] at hr
          simp [filterTags, h0, hl, hr, consOk]
        | some s =>
          rw [hspec] at hr
          by_cases hs : s = ""
          · subst hs
            refine ⟨lstripV tag :: vs, ?_⟩
            simp [filterTags, h0, hl, hr, consOk]
          · rcases Option.isSome_iff_exists.mp (hsp s hspec hs) with ⟨sp, hpe⟩
            by_cases hm : specMatches sp sem = true
            · refine ⟨lstripV tag :: vs, ?_⟩
              simp [filterTags, h0, hl, hs, hpe, hm, hr, consOk]
            · refine ⟨vs, ?_⟩
              simp [filterTags, h0, hl, hs, hpe, hm]
              exact hr

/-- A tag that loose-parses and matches the (parsing) spec is retained. -/
theorem retained_mem {spec : Option String} {sem : SemTag}
    (hmatch : ∀ s sp, spec = some s → s ≠ "" → specParse s = some sp →
      specMatches sp sem = true) :
    ∀ {tags vs : List String} {tg : String},
      filterTags spec tags = Except.ok vs → tg ∈ tags →
      looseParse (lstripV tg) = some sem → lstripV tg ∈ vs := by
  intro tags
  induction tags with
  | nil =>
    intro vs tg _ htg
    simp at htg
  | cons tag rest ih =>
    intro vs tg h htg hl
    rcases List.mem_cons.mp htg with rfl | htg2
    · have h0 : lstripV tg ≠ "" := lstripV_ne_empty_of_parse hl
      cases hspec : spec with
      | none =>
        rw [hspec] at h
        simp [filterTags, h0, hl] at h
        rcases consOk_ok h with ⟨vs2, _, rfl⟩
        exact List.mem_cons_self _ _
      | some s =>
        rw [hspec] at h
        by_cases hs : s = ""
        · subst hs
          simp [filterTags, h0, hl] at h
          rcases consOk_ok h with ⟨vs2, _, rfl⟩
          exact List.mem_cons_self _ _
        · cases hsp : specParse s with
          | none => simp [filterTags, h0, hl, hs, hsp] at h
          | some sp =>
            have hm := hmatch s sp hspec hs hsp
            simp [filterTags, h0, hl, hs, hsp, hm] at h
            rcases consOk_ok h with ⟨vs2, _, rfl⟩
            exact List.mem_cons_self _ _
    · by_cases h0 : lstripV tag = ""
      · simp [filterTags, h0] at h
        exact ih h htg2 hl
      · cases hl2 : looseParse (lstripV tag) with
        | none =>
          simp [filterTags, h0, hl2] at h
          exact ih h htg2 hl
        | some sem2 =>
          cases spec with
          | none =>
            simp [filterTags, h0, hl2] at h
            rcases consOk_ok h with ⟨vs2, hr, rfl⟩
            exact List.mem_cons_of_mem _ (ih hr htg2 hl)
          | some s =>
            by_cases hs : s = ""
            · subst hs
              simp [filterTags, h0, hl2] at h
              rcases consOk_ok h with ⟨vs2, hr, rfl⟩
              exact List.mem_cons_of_mem _ (ih hr htg2 hl)
            · cases hsp : specParse s with
              | none => simp [filterTags, h0, hl2, hs, hsp] at h
              | some sp =>
                by_cases hm : specMatches sp sem2 = true
                · simp [filterTags, h0, hl2, hs, hsp, hm] at h
                  rcases consOk_ok h with ⟨vs2, hr, rfl⟩
                  exact List.mem_cons_of_mem _ (ih hr htg2 hl)
                · simp [filterTags, h0, hl2, hs, hsp, hm] at h
                  exact ih h htg2 hl

/-- When every tag is skipped before the spec is consulted, the retained
list is empty (for any spec, malformed or not). -/
theorem filterTags_all_skipped {spec : Option String} :
    ∀ {tags : List String},
      (∀ tg ∈ tags, lstripV tg = "" ∨ looseParse (lstripV tg) = none) →
      filterTags spec tags = Except.ok [] := by
  intro tags
  induction tags with
  | nil => intro _; rfl
  | cons tag rest ih =>
    intro hall
    have htail := ih (fun tg htg => hall tg (List.mem_cons_of_mem _ htg))
    by_cases h0 : lstripV tag = ""
    · simp [filterTags, h0]
      exact htail
    · rcases hall tag (List.mem_cons_self tag rest) with h0x | hl
      · exact absurd h0x h0
      · simp [filterTags, h0, hl]
        exact htail

/-- A truthy malformed spec raises at the first tag that loose-parses. -/
theorem filterTags_malformed_crash {s : String}
    (hs : s ≠ "") (hmal : specParse s = none) :
    ∀ {tags : List String} {tg : String} {sem : SemTag},
      tg ∈ tags → looseParse (lstripV tg) = some sem →
      filterTags (some s) tags = Except.error () := by
  intro tags
  induction tags with
  | nil =>
    intro tg sem htg
    simp at htg
  | cons tag rest ih =>
    intro tg sem htg hl
    rcases List.mem_cons.mp htg with rfl | htg2
    · have h0 : lstripV tg ≠ "" := lstripV_ne_empty_of_parse hl
      simp [filterTags, h0, hl, hs, hmal]
    · by_cases h0 : lstripV tag = ""
      · simp [filterTags, h0]
        exact ih htg2 hl
      · cases hl2 : looseParse (lstripV tag) with
        | none =>
          simp [filterTags, h0, hl2]
          exact ih htg2 hl
        | some sem2 =>
          simp [filterTags, h0, hl2, hs, hmal]

/-! ### Properties of per-repository processing and the main loop -/

theorem processRepo_no_match {spec : Option String} {repo : String} {tags : List String}
    (hf : filterTags spec tags = Except.ok []) :
    processRepo spec repo tags = .line (basename repo ++ ": " ++ "no match") := by
  unfold processRepo
  simp only [hf]
  rfl

theorem processRepo_invalid {spec : Option String} {repo : String} {tags vs : List String}
    (hf : filterTags spec tags = Except.ok vs) (hnone : sortStrict vs = none) :
    processRepo spec repo tags = .invalid (invalidDiag repo vs) := by
  unfold processRepo
  simp only [hf, hnone]

theorem processRepo_specErr {spec : Option String} {repo : String} {tags : List String}
    (hf : filterTags spec tags = Except.error ()) :
    processRepo spec repo tags = .specErr := by
  unfold processRepo
  simp only [hf]

theorem processRepo_line_of_sorted {spec : Option String} {repo : String}
    {tags vs sorted : List String} {v : String}
    (hf : filterTags spec tags = Except.ok vs) (hsort : sortStrict vs = some sorted)
    (hlast : sorted.getLast? = some v) (hv : v ≠ "") :
    processRepo spec repo tags = .line (basename repo ++ ": " ++ v) := by
  unfold processRepo
  simp only [hf, hsort, hlast]
  rw [if_neg hv]

theorem processRepo_line_shape {spec : Option String} {repo : String}
    {tags : List String} {l : String}
    (h : processRepo spec repo tags = .line l) :
    ∃ v, l = basename repo ++ ": " ++ v := by
  unfold processRepo at h
  cases hf : filterTags spec tags with
  | error e =>
    simp only [hf] at h
    exact RepoOutcome.noConfusion h
  | ok vs =>
    simp only [hf] at h
    cases hsrt : sortStrict vs with
    | none => simp only [hsrt] at h; cases h
    | some sorted =>
      simp only [hsrt] at h
      cases h
      exact ⟨_, rfl⟩

theorem run_cons_line {spec : Option String} {tagsOf : String → List String}
    {repo l : String} {rest : List String}
    (hr : repo ≠ "") (hh : startsHash repo = false)
    (hproc : processRepo spec repo (tagsOf repo) = .line l) :
    run spec tagsOf (repo :: rest) =
      (l :: (run spec tagsOf rest).1, (run spec tagsOf rest).2) := by
  simp [run, hr, hh, hproc]

theorem run_cons_invalid {spec : Option String} {tagsOf : String → List String}
    {repo d : String} {rest : List String}
    (hr : repo ≠ "") (hh : startsHash repo = false)
    (hproc : processRepo spec repo (tagsOf repo) = .invalid d) :
    run spec tagsOf (repo :: rest) = ([d], Outcome.invalidExit) := by
  simp [run, hr, hh, hproc]

theorem run_cons_specErr {spec : Option String} {tagsOf : String → List String}
    {repo : String} {rest : List String}
    (hr : repo ≠ "") (hh : startsHash repo = false)
    (hproc : processRepo spec repo (tagsOf repo) = .specErr) :
    run spec tagsOf (repo :: rest) = ([], Outcome.specCrash) := by
  simp [run, hr, hh, hproc]

/-- A successful run's output is the per-line contribution of each config
line, in order, and every processed repository produced a result line. -/
theorem run_ok_lines {spec : Option String} {tagsOf : String → List String} :
    ∀ {repos : List String}, (run spec tagsOf repos).2 = Outcome.ok →
      (run spec tagsOf repos).1 = repos.filterMap (outLine spec tagsOf) ∧
      ∀ r ∈ repos, r ≠ "" → startsHash r = false →
        ∃ l, processRepo spec r (tagsOf r) = .line l := by
  intro repos
  induction repos with
  | nil =>
    intro _
    refine ⟨rfl, ?_⟩
    intro r hr
    simp at hr
  | cons repo rest ih =>
    intro h
    by_cases hr : repo = ""
    · rw [show run spec tagsOf (repo :: rest) = run spec tagsOf rest by simp [run, hr]] at h ⊢
      rcases ih h with ⟨h1, h2⟩
      refine ⟨?_, ?_⟩
      · rw [h1]
        simp [outLine, hr]
      · intro r hmem hne hsh
        rcases List.mem_cons.mp hmem with rfl | hmem2
        · exact absurd hr hne
        · exact h2 r hmem2 hne hsh
    · by_cases hh : startsHash repo = true
      · rw [show run spec tagsOf (repo :: rest) =
            ("" :: (run spec tagsOf rest).1, (run spec tagsOf rest).2) by
              simp [run, hr, hh]] at h ⊢
        rcases ih h with ⟨h1, h2⟩
        refine ⟨?_, ?_⟩
        · simp only [List.filterMap_cons]
          rw [show outLine spec tagsOf repo = some "" by simp [outLine, hr, hh]]
          simp [h1]
        · intro r hmem hne hsh
          rcases List.mem_cons.mp hmem with rfl | hmem2
          · rw [hh] at hsh; cases hsh
          · exact h2 r hmem2 hne hsh
      · have hh2 : startsHash repo = false := by
          cases hb : startsHash repo
          · rfl
          · exact absurd hb hh
        cases hproc : processRepo spec repo (tagsOf repo) with
        | line l =>
          rw [run_cons_line hr hh2 hproc] at h ⊢
          rcases ih h with ⟨h1, h2⟩
          refine ⟨?_, ?_⟩
          · simp only [List.filterMap_cons]
            rw [show outLine spec tagsOf repo = some l by simp [outLine, hr, hh2, hproc]]
            simp [h1]
          · intro r hmem hne hsh
            rcases List.mem_cons.mp hmem with rfl | hmem2
            · exact ⟨l, hproc⟩
            · exact h2 r hmem2 hne hsh
        | invalid d =>
          rw [run_cons_invalid hr hh2 hproc] at h
          cases h
        | specErr =>
          rw [run_cons_specErr hr hh2 hproc] at h
          cases h

/-- An empty string among the classified arguments makes the list
comprehension raise `IndexError`. -/
theorem filterArgs_none_of_mem_empty :
    ∀ {l : List String}, "" ∈ l → filterArgs l = none := by
  intro l
  induction l with
  | nil => intro h; simp at h
  | cons a rest ih =>
    intro h
    by_cases ha : a = ""
    · simp [filterArgs, ha]
    · rcases List.mem_cons.mp h with he | hmem
      · exact absurd he.symm ha
      · simp [filterArgs, ha, ih hmem]

/-! ### Concrete tag oracles used by witnesses and counterexamples -/

/-- Oracle: `repoA` has no tags, any other path has tag `1.0.0`. -/
def tagsOfA : String → List String :=
  fun r => if r = "repoA" then [] else ["1.0.0"]

/-- Oracle for the two-repository happy-path scenario. -/
def tagsOfB : String → List String := fun r =>
  if r = "repoA" then ["v1.0.0", "v1.2.0"]
  else if r = "repoB" then ["1.0.0", "2.0.0", "notaversion"] else []

/-- Oracle: every path has the single pre-release tag `1.2.3-rc1`. -/
def tagsOfC : String → List String := fun _ => ["1.2.3-rc1"]

/-- Oracle: every path has tags `1` (loose-only) and `2.0.0` (strict). -/
def tagsOfD : String → List String := fun _ => ["1", "2.0.0"]

/-! ### The claims -/

/-- C1: for every repository whose retained tag list is non-empty and whose
strict sort succeeds, the printed version is a retained tag whose
`StrictVersion` key is greatest under the strict three-component numeric
ordering — the maximum by numeric comparison, never by string order. -/
theorem C1_latest_is_strict_numeric_max
    (spec : Option String) (repo : String) (tags vs sorted : List String)
    (hf : filterTags spec tags = Except.ok vs)
    (hsort : sortStrict vs = some sorted)
    (hne : vs ≠ []) :
    ∃ v, processRepo spec repo tags = RepoOutcome.line (basename repo ++ ": " ++ v) ∧
      v ∈ vs ∧
      ∀ t ∈ vs, ∃ kt kv, StrictVersion t = some kt ∧ StrictVersion v = some kv ∧
        strictLe kt kv = true := by
  rcases sortStrict_ok_max hsort hne with ⟨v, hlast, hvmem, hmax⟩
  have hv : v ≠ "" := retained_ne_empty hf v hvmem
  exact ⟨v, processRepo_line_of_sorted hf hsort hlast hv, hvmem, hmax⟩

/-- C1 witness: with retained tags `10.0.0` and `2.0.0` the printed latest
is `10.0.0` (numeric maximum), not the lexicographic maximum `2.0.0`. -/
theorem C1_witness :
    filterTags none ["10.0.0", "2.0.0"] = Except.ok ["10.0.0", "2.0.0"] ∧
    sortStrict ["10.0.0", "2.0.0"] = some ["2.0.0", "10.0.0"] ∧
    (["10.0.0", "2.0.0"] : List String) ≠ [] ∧
    (∃ v, processRepo none "repoA" ["10.0.0", "2.0.0"] =
        RepoOutcome.line (basename "repoA" ++ ": " ++ v) ∧
      v ∈ ["10.0.0", "2.0.0"] ∧
      ∀ t ∈ (["10.0.0", "2.0.0"] : List String), ∃ kt kv, StrictVersion t = some kt ∧
        StrictVersion v = some kv ∧ strictLe kt kv = true) ∧
    processRepo none "repoA" ["10.0.0", "2.0.0"] = RepoOutcome.line ("repoA: 10.0.0") :=
  ⟨rfl, rfl, by decide,
    C1_latest_is_strict_numeric_max none "repoA" ["10.0.0", "2.0.0"]
      ["10.0.0", "2.0.0"] ["2.0.0", "10.0.0"] rfl rfl (by decide), rfl⟩

/-- C2: under a supplied, well-formed spec, the printed latest version is a
retained tag, and every retained tag loose-parses to a version matching the
spec's range predicate; hence the printed version satisfies the range. -/
theorem C2_printed_version_matches_spec
    (s : String) (sp : List SpecItem) (repo : String) (tags vs sorted : List String)
    (hs : s ≠ "") (hp : specParse s = some sp)
    (hf : filterTags (some s) tags = Except.ok vs)
    (hsort : sortStrict vs = some sorted) (hne : vs ≠ []) :
    ∃ v sem, processRepo (some s) repo tags =
        RepoOutcome.line (basename repo ++ ": " ++ v) ∧
      v ∈ vs ∧ looseParse v = some sem ∧ specMatches sp sem = true := by
  rcases sortStrict_ok_max hsort hne with ⟨v, hlast, hvmem, _⟩
  have hv : v ≠ "" := retained_ne_empty hf v hvmem
  rcases retained_matched hs hp hf v hvmem with ⟨sem, hsem, hm⟩
  exact ⟨v, sem, processRepo_line_of_sorted hf hsort hlast hv, hvmem, hsem, hm⟩

/-- C2 witness: with spec `<2.0.0` over tags `1.0.0`, `2.0.0`,
`notaversion`, the printed latest is `1.0.0`, which matches the range;
the numerically greater out-of-range `2.0.0` is not selected. -/
theorem C2_witness :
    ("<2.0.0" : String) ≠ "" ∧
    specParse "<2.0.0" = some [⟨SpecOp.lt, ⟨2, some 0, some 0, none, none⟩⟩] ∧
    filterTags (some "<2.0.0") ["1.0.0", "2.0.0", "notaversion"] = Except.ok ["1.0.0"] ∧
    sortStrict ["1.0.0"] = some ["1.0.0"] ∧
    (["1.0.0"] : List String) ≠ [] ∧
    ∃ v sem, processRepo (some "<2.0.0") "repoB" ["1.0.0", "2.0.0", "notaversion"] =
        RepoOutcome.line (basename "repoB" ++ ": " ++ v) ∧
      v ∈ ["1.0.0"] ∧ looseParse v = some sem ∧
      specMatches [⟨SpecOp.lt, ⟨2, some 0, some 0, none, none⟩⟩] sem = true :=
  ⟨by decide, rfl, rfl, rfl, by decide,
    C2_printed_version_matches_spec "<2.0.0" [⟨SpecOp.lt, ⟨2, some 0, some 0, none, none⟩⟩]
      "repoB" ["1.0.0", "2.0.0", "notaversion"] ["1.0.0"] ["1.0.0"]
      (by decide) rfl rfl rfl (by decide)⟩

/-- C3: a repository whose filtered tag list is empty prints exactly
`<basename>: no match`. -/
theorem C3_empty_retained_prints_no_match
    (spec : Option String) (repo : String) (tags : List String)
    (h : filterTags spec tags = Except.ok []) :
    processRepo spec repo tags = RepoOutcome.line (basename repo ++ ": " ++ "no match") :=
  processRepo_no_match h

/-- C3 witness: a repository with only a non-semantic tag prints
`repoC: no match`. -/
theorem C3_witness :
    filterTags none ["notaversion"] = Except.ok [] ∧
    processRepo none "/home/u/repoC" ["notaversion"] =
      RepoOutcome.line (basename "/home/u/repoC" ++ ": " ++ "no match") ∧
    basename "/home/u/repoC" ++ ": " ++ "no match" = "repoC: no match" :=
  ⟨rfl, C3_empty_retained_prints_no_match none "/home/u/repoC" ["notaversion"] rfl, rfl⟩

/-- C4: the standard output of a successful run is determined config-line
by config-line, in order: an empty line contributes nothing, a `#` line
contributes exactly one blank line (and is not processed as a repository),
and any other line contributes exactly one `<basename>: <version or
no match>` line. -/
theorem C4_output_is_linewise
    (spec : Option String) (tagsOf : String → List String) (content : String)
    (h : (print_versions spec tagsOf content).2 = Outcome.ok) :
    (print_versions spec tagsOf content).1 =
      (configLines content).filterMap (outLine (normSpec spec) tagsOf) ∧
    (∀ r ∈ configLines content, r = "" → outLine (normSpec spec) tagsOf r = none) ∧
    (∀ r ∈ configLines content, r ≠ "" → startsHash r = true →
      outLine (normSpec spec) tagsOf r = some "") ∧
    ∀ r ∈ configLines content, r ≠ "" → startsHash r = false →
      ∃ v, outLine (normSpec spec) tagsOf r = some (basename r ++ ": " ++ v) := by
  unfold print_versions at h ⊢
  rcases run_ok_lines h with ⟨h1, h2⟩
  refine ⟨h1, ?_, ?_, ?_⟩
  · intro r _ hr
    simp [outLine, hr]
  · intro r _ hr hsh
    simp [outLine, hr, hsh]
  · intro r hmem hr hsh
    rcases h2 r hmem hr hsh with ⟨l, hl⟩
    rcases processRepo_line_shape hl with ⟨v, rfl⟩
    exact ⟨v, by simp [outLine, hr, hsh, hl]⟩

/-- C4 witness: the three-line config `repoA`, `#comment`, `repoB`
produces, in order, `repoA: 1.2.0`, one blank line, `repoB: 2.0.0`. -/
theorem C4_witness :
    (print_versions none tagsOfB "repoA\n#comment\nrepoB").2 = Outcome.ok ∧
    (print_versions none tagsOfB "repoA\n#comment\nrepoB").1 =
      (["repoA: 1.2.0", "", "repoB: 2.0.0"] : List String) ∧
    ((print_versions none tagsOfB "repoA\n#comment\nrepoB").1 =
      (configLines "repoA\n#comment\nrepoB").filterMap (outLine (normSpec none) tagsOfB) ∧
    (∀ r ∈ configLines "repoA\n#comment\nrepoB", r = "" →
      outLine (normSpec none) tagsOfB r = none) ∧
    (∀ r ∈ configLines "repoA\n#comment\nrepoB", r ≠ "" → startsHash r = true →
      outLine (normSpec none) tagsOfB r = some "") ∧
    ∀ r ∈ configLines "repoA\n#comment\nrepoB", r ≠ "" → startsHash r = false →
      ∃ v, outLine (normSpec none) tagsOfB r = some (basename r ++ ": " ++ v)) :=
  ⟨rfl, rfl, C4_output_is_linewise none tagsOfB "repoA\n#comment\nrepoB" rfl⟩

/-- C5: if some retained tag has no `StrictVersion` parse, the run aborts
at that repository with `exit(-1)`: the only line printed for it is the
diagnostic naming the repository and the full retained list, the rest of
the config is not processed, and the exit status is non-zero. -/
theorem C5_invalid_strict_tag_fatal
    (spec : Option String) (tagsOf : String → List String) (repo t : String)
    (vs rest : List String)
    (hr : repo ≠ "") (hh : startsHash repo = false)
    (hf : filterTags spec (tagsOf repo) = Except.ok vs)
    (ht : t ∈ vs) (hbad : StrictVersion t = none) :
    run spec tagsOf (repo :: rest) = ([invalidDiag repo vs], Outcome.invalidExit) ∧
    Outcome.exitCode Outcome.invalidExit ≠ 0 := by
  have hnone := sortStrict_none_of_mem ht hbad
  exact ⟨run_cons_invalid hr hh (processRepo_invalid hf hnone), by decide⟩

/-- C5 witness: the retained pre-release tag `1.2.3-rc1` loose-parses but
has no strict parse; the run prints the diagnostic with the repository and
the retained list and exits non-zero. -/
theorem C5_witness :
    ("repoD" : String) ≠ "" ∧ startsHash "repoD" = false ∧
    filterTags none (tagsOfC "repoD") = Except.ok ["1.2.3-rc1"] ∧
    "1.2.3-rc1" ∈ (["1.2.3-rc1"] : List String) ∧
    StrictVersion "1.2.3-rc1" = none ∧
    (run none tagsOfC ["repoD"] =
        ([invalidDiag "repoD" ["1.2.3-rc1"]], Outcome.invalidExit) ∧
      Outcome.exitCode Outcome.invalidExit ≠ 0) ∧
    invalidDiag "repoD" ["1.2.3-rc1"] =
      "Invalid version in repo repoD: ['1.2.3-rc1']" :=
  ⟨by decide, rfl, rfl, by decide, rfl,
    C5_invalid_strict_tag_fatal none tagsOfC "repoD" "1.2.3-rc1" ["1.2.3-rc1"] []
      (by decide) rfl rfl (by decide) rfl, rfl⟩

/-- C6 counterexample: with the malformed spec `garbage` and config lines
`repoA` (no tags) then `repoB` (tag `1.0.0`), the first repository is fully
processed and prints `repoA: no match`; the crash only happens at the
second repository — refuting "the abort happens on the first repository
attempted, regardless of that repository's tags". -/
theorem C6_counterexample :
    specParse "garbage" = none ∧
    print_versions (some "garbage") tagsOfA "repoA\nrepoB" =
      (["repoA: no match"], Outcome.specCrash) :=
  ⟨rfl, rfl⟩

/-- C6 amended: the spec is re-parsed per tag, so a malformed spec aborts
the run at the first repository that retains a loose-parseable candidate
tag, not necessarily the first repository attempted; every earlier
repository line is processed normally (blank lines skipped, comments
printing a blank line, repositories printing their result — necessarily
`no match`, since no candidate survived) and its output remains. -/
theorem C6_amended_crash_at_first_loose_candidate
    (s : String) (tagsOf : String → List String) (r : String) (post : List String)
    (hs : s ≠ "") (hmal : specParse s = none)
    (hr1 : r ≠ "") (hr2 : startsHash r = false)
    (hr3 : ∃ tg ∈ tagsOf r, ∃ sem, looseParse (lstripV tg) = some sem) :
    ∀ pre : List String,
      (∀ p ∈ pre, p = "" ∨ startsHash p = true ∨
        ∀ tg ∈ tagsOf p, lstripV tg = "" ∨ looseParse (lstripV tg) = none) →
      run (some s) tagsOf (pre ++ r :: post) =
        (pre.filterMap (outLine (some s) tagsOf), Outcome.specCrash) := by
  intro pre
  induction pre with
  | nil =>
    intro _
    rcases hr3 with ⟨tg, htg, sem, hsem⟩
    have hcrash := filterTags_malformed_crash hs hmal htg hsem
    simpa using run_cons_specErr hr1 hr2 (processRepo_specErr hcrash)
  | cons p pre2 ih =>
    intro hpre
    have htail := ih (fun q hq => hpre q (List.mem_cons_of_mem _ hq))
    rw [List.cons_append]
    by_cases hp0 : p = ""
    · rw [show run (some s) tagsOf (p :: (pre2 ++ r :: post)) =
          run (some s) tagsOf (pre2 ++ r :: post) by simp [run, hp0]]
      rw [htail]
      simp [outLine, hp0]
    · by_cases hph : startsHash p = true
      · rw [show run (some s) tagsOf (p :: (pre2 ++ r :: post)) =
            ("" :: (run (some s) tagsOf (pre2 ++ r :: post)).1,
              (run (some s) tagsOf (pre2 ++ r :: post)).2) by simp [run, hp0, hph]]
        rw [htail]
        simp only [List.filterMap_cons]
        rw [show outLine (some s) tagsOf p = some "" by simp [outLine, hp0, hph]]
      · have hph2 : startsHash p = false := by
          cases hb : startsHash p
          · rfl
          · exact absurd hb hph
        rcases hpre p (List.mem_cons_self _ _) with h1 | h2 | h3
        · exact absurd h1 hp0
        · exact absurd h2 hph
        · have hok : filterTags (some s) (tagsOf p) = Except.ok [] :=
            filterTags_all_skipped h3
          have hline := @processRepo_no_match (some s) p (tagsOf p) hok
          rw [run_cons_line hp0 hph2 hline, htail]
          simp only [List.filterMap_cons]
          rw [show outLine (some s) tagsOf p =
              some (basename p ++ ": " ++ "no match") by
                simp [outLine, hp0, hph2, hline]]

/-- C6 amended witness: malformed spec `garbage`, first repository without
candidates prints `repoA: no match`, then the run crashes at `repoB`. -/
theorem C6_amended_witness :
    ("garbage" : String) ≠ "" ∧ specParse "garbage" = none ∧
    ("repoB" : String) ≠ "" ∧ startsHash "repoB" = false ∧
    (∃ tg ∈ tagsOfA "repoB", ∃ sem, looseParse (lstripV tg) = some sem) ∧
    (∀ p ∈ (["repoA"] : List String), p = "" ∨ startsHash p = true ∨
      ∀ tg ∈ tagsOfA p, lstripV tg = "" ∨ looseParse (lstripV tg) = none) ∧
    run (some "garbage") tagsOfA (["repoA"] ++ ["repoB"] ++ []) =
      ((["repoA"] : List String).filterMap (outLine (some "garbage") tagsOfA),
        Outcome.specCrash) :=
  ⟨by decide, rfl, by decide, rfl,
    ⟨"1.0.0", by decide, ⟨1, some 0, some 0, none, none⟩, rfl⟩,
    by decide,
    C6_amended_crash_at_first_loose_candidate "garbage" tagsOfA "repoB" []
      (by decide) rfl (by decide) rfl
      ⟨"1.0.0", by decide, ⟨1, some 0, some 0, none, none⟩, rfl⟩
      ["repoA"] (by decide)⟩

/-- C7 counterexample: `lstrip('v')` removes every leading `v`, so
`vv1.2.3` becomes `1.2.3` — not `v1.2.3` — and the tag is accepted and
retained as `1.2.3` rather than being discarded. -/
theorem C7_counterexample :
    lstripV "vv1.2.3" = "1.2.3" ∧
    lstripV "vv1.2.3" ≠ "v1.2.3" ∧
    filterTags none ["vv1.2.3"] = Except.ok ["1.2.3"] :=
  ⟨rfl, by decide, rfl⟩

/-- C7 amended: the pre-parse stripping removes every leading `v` (Python
`lstrip('v')`), not exactly one: the stripped result never starts with `v`
and the original tag is some number of `v`s followed by the result. -/
theorem C7_amended_strips_all_leading_vs (tag : String) :
    (lstripV tag).data.head? ≠ some 'v' ∧
    ∃ k, tag.data = List.replicate k 'v' ++ (lstripV tag).data := by
  constructor
  · intro hcontra
    have hmatch := List.head?_dropWhile_not (fun c => c == 'v') tag.data
    have hdata : (lstripV tag).data = tag.data.dropWhile (fun c => c == 'v') := rfl
    rw [hdata] at hcontra
    rw [hcontra] at hmatch
    simp at hmatch
  · refine ⟨(tag.data.takeWhile (fun c => c == 'v')).length, ?_⟩
    have hsplit := List.takeWhile_append_dropWhile (p := fun c => c == 'v') (l := tag.data)
    have hrep : tag.data.takeWhile (fun c => c == 'v') =
        List.replicate (tag.data.takeWhile (fun c => c == 'v')).length 'v' := by
      rw [List.eq_replicate_iff]
      refine ⟨rfl, ?_⟩
      intro b hb
      have := List.mem_takeWhile_imp hb
      simpa using this
    calc tag.data = tag.data.takeWhile (fun c => c == 'v') ++
          tag.data.dropWhile (fun c => c == 'v') := hsplit.symm
      _ = List.replicate (tag.data.takeWhile (fun c => c == 'v')).length 'v' ++
          (lstripV tag).data := by rw [← hrep]; rfl

/-- C8: prepending a `v` to a tag does not change its fate: the filter
treats `"v" ++ t` and `t` identically (same accepted/rejected outcome and,
when accepted, the same retained version string). -/
theorem C8_leading_v_idempotent (spec : Option String) (t : String)
    (rest : List String) :
    filterTags spec (("v" ++ t) :: rest) = filterTags spec (t :: rest) := by
  have hdata : ("v" ++ t).data = 'v' :: t.data := by
    rw [String.data_append]
    rfl
  have hkey : lstripV ("v" ++ t) = lstripV t := by
    unfold lstripV
    rw [hdata]
    rw [List.dropWhile_cons_of_pos (by decide)]
  simp only [filterTags, hkey]

/-- C9: a tag that survives loose parsing (and the spec filter, when one
applies) but has no strict parse — such as `1` — is retained and then makes
the whole run abort at the sort step with `exit(-1)`, even when the
repository also has strictly valid tags. -/
theorem C9_loose_only_tag_aborts_run
    (spec : Option String) (tagsOf : String → List String) (repo tg : String)
    (sem : SemTag) (rest : List String)
    (hr : repo ≠ "") (hh : startsHash repo = false)
    (htg : tg ∈ tagsOf repo)
    (hl : looseParse (lstripV tg) = some sem)
    (hstrict : StrictVersion (lstripV tg) = none)
    (hparse : ∀ s, spec = some s → s ≠ "" → (specParse s).isSome)
    (hmatch : ∀ s sp, spec = some s → s ≠ "" → specParse s = some sp →
      specMatches sp sem = true) :
    ∃ vs, filterTags spec (tagsOf repo) = Except.ok vs ∧ lstripV tg ∈ vs ∧
      run spec tagsOf (repo :: rest) = ([invalidDiag repo vs], Outcome.invalidExit) ∧
      Outcome.exitCode Outcome.invalidExit = -1 := by
  rcases filterTags_total hparse (tagsOf repo) with ⟨vs, hf⟩
  have hmem : lstripV tg ∈ vs := retained_mem hmatch hf htg hl
  have hnone := sortStrict_none_of_mem hmem hstrict
  exact ⟨vs, hf, hmem,
    run_cons_invalid hr hh (processRepo_invalid hf hnone), rfl⟩

/-- C9 witness: tags `1` (loose-only) and `2.0.0` (strictly valid) — the
run aborts with the diagnostic listing both retained tags and exits `-1`
despite the presence of the strictly valid `2.0.0`. -/
theorem C9_witness :
    ("repoE" : String) ≠ "" ∧ startsHash "repoE" = false ∧
    "1" ∈ tagsOfD "repoE" ∧
    looseParse (lstripV "1") = some ⟨1, none, none, none, none⟩ ∧
    StrictVersion (lstripV "1") = none ∧
    StrictVersion "2.0.0" = some ⟨2, 0, 0, none⟩ ∧
    ∃ vs, filterTags none (tagsOfD "repoE") = Except.ok vs ∧ lstripV "1" ∈ vs ∧
      run none tagsOfD ["repoE"] = ([invalidDiag "repoE" vs], Outcome.invalidExit) ∧
      Outcome.exitCode Outcome.invalidExit = -1 :=
  ⟨by decide, rfl, by decide, rfl, rfl, rfl,
    C9_loose_only_tag_aborts_run none tagsOfD "repoE" "1"
      ⟨1, none, none, none, none⟩ [] (by decide) rfl (by decide) rfl rfl
      (fun s hcon => nomatch hcon) (fun s sp hcon => nomatch hcon)⟩

/-- C10 counterexample: an invocation whose arguments contain the empty
string but also `-h` prints the usage text and exits instead of raising
`IndexError` — refuting "every invocation whose argument list contains the
empty string crashes with an uncaught IndexError". -/
theorem C10_counterexample :
    main ["git_versions.py", "-h", ""] = MainResult.helpExit ∧
    MainResult.helpExit ≠ MainResult.indexError :=
  ⟨rfl, by decide⟩

/-- C10 amended: when no help flag is present, any invocation whose
argument list (after the program name) contains the empty string crashes
with the uncaught `IndexError` from `_[0]` during argument classification,
before `print_versions` is called. -/
theorem C10_amended_empty_arg_crashes
    (argv : List String)
    (h1 : argv.contains ("-h") = false)
    (h2 : argv.contains ("--help") = false)
    (h3 : "" ∈ argv.drop 1) :
    main argv = MainResult.indexError := by
  unfold main
  rw [h1, h2]
  simp only [Bool.or_self, Bool.false_eq_true, if_false]
  rw [filterArgs_none_of_mem_empty h3]

/-- C10 amended witness: `argv = [program, ""]` raises `IndexError`. -/
theorem C10_amended_witness :
    (["git_versions.py", ""] : List String).contains ("-h") = false ∧
    (["git_versions.py", ""] : List String).contains ("--help") = false ∧
    "" ∈ (["git_versions.py", ""] : List String).drop 1 ∧
    main ["git_versions.py", ""] = MainResult.indexError :=
  ⟨rfl, rfl, by decide,
    C10_amended_empty_arg_crashes ["git_versions.py", ""] rfl rfl (by decide)⟩

end GitVersions
